import Mathlib

/-!
Verification of the `sisl/physics/state.py` State/Coefficient/StateC algebra.

Arrays are modelled as Lean lists: a 1-D numpy array of scalars becomes a
`List γ`, a 2-D array of complex state vectors becomes a `List (List ℂ)`
(row-major, as in the source).  Floating point values are modelled as real
(or generic linearly ordered field) numbers.  Out-of-range numpy indexing
never occurs on the paths exercised here, so list access uses `getD` with
the type's zero / nil as default.
-/

open scoped Classical

namespace SislState

open Real ComplexConjugate

/-! ### numpy-style list primitives -/

/-- `np.diff`: consecutive differences `l[i+1] - l[i]`. -/
def diffs {γ : Type} [Sub γ] (l : List γ) : List γ :=
  List.zipWith (fun a b => b - a) l l.tail

/-- `np.argsort`: a list of the indices `0, ..., n-1` ordered so that the
corresponding values of `c` are ascending. -/
def argsort {γ : Type} [LinearOrder γ] [Zero γ] (c : List γ) : List ℕ :=
  List.insertionSort (fun i j => c.getD i 0 ≤ c.getD j 0) (List.range c.length)

/-- `(np.diff(l) > 1).nonzero()[0]`: the positions at which the gap between
consecutive entries of `l` exceeds one. -/
def gapBreaks (l : List ℕ) : List ℕ :=
  (List.range (diffs l).length).filter (fun i => decide (1 < (diffs l).getD i 0))

/-- `np.array_split(l, ps)` for a list `ps` of (absolute, increasing) split
positions: chunks `l[0:p0], l[p0:p1], ..., l[pk:]`. -/
def arraySplit : List ℕ → List ℕ → List (List ℕ)
  | l, [] => [l]
  | l, p :: ps => l.take p :: arraySplit (l.drop p) (ps.map (fun q => q - p))
termination_by _ ps => ps.length
decreasing_by simp

/-- The spec's wording of the same chunking: split a list of marked positions
into contiguous runs, breaking wherever the gap between consecutive marked
positions exceeds 1. -/
def splitRuns : List ℕ → List (List ℕ)
  | [] => []
  | x :: xs =>
    match splitRuns xs with
    | [] => [[x]]
    | [] :: rest => [x] :: [] :: rest
    | (y :: g) :: rest =>
      if y ≤ x + 1 then (x :: y :: g) :: rest else [x] :: (y :: g) :: rest

/-! ### Coefficient -/

/-- `Coefficient`: a 1-D array of scalar coefficients (`self.c`). -/
structure Coefficient (γ : Type) : Type where
  c : List γ

/-- `Coefficient.degenerate(eps)`, translated line by line from the source:
`sidx = argsort(c)`, `dc = diff(c[sidx])`, `idx = (dc < eps).nonzero()[0]`,
early return on empty, `seps = (diff(idx) > 1).nonzero()[0]`,
`IDX = array_split(idx, seps + 1)`, and for every chunk emit
`append(sidx[chunk], sidx[chunk[-1] + 1])`. -/
def Coefficient.degenerate {γ : Type} [LinearOrderedField γ] (co : Coefficient γ)
    (eps : γ) : List (List ℕ) :=
  let sidx := argsort co.c
  let dc := diffs (sidx.map (fun i => co.c.getD i 0))
  let idx := (List.range dc.length).filter (fun i => decide (dc.getD i 0 < eps))
  if idx = [] then []
  else
    (arraySplit idx ((gapBreaks idx).map (fun q => q + 1))).map
      (fun run => run.map (fun i => sidx.getD i 0) ++ [sidx.getD (run.getLastD 0 + 1) 0])

/-- The degeneracy grouping as the spec words it: sort indices by value
ascending, mark sorted positions whose consecutive difference is strictly
below `eps`, split the marked positions into maximal contiguous runs
(breaking where the gap between consecutive marked positions exceeds 1), and
emit for each run the original indices of the run plus the one trailing
index. -/
def Coefficient.degenerateSpec {γ : Type} [LinearOrderedField γ] (co : Coefficient γ)
    (eps : γ) : List (List ℕ) :=
  let sidx := argsort co.c
  let dc := diffs (sidx.map (fun i => co.c.getD i 0))
  let marked := (List.range dc.length).filter (fun i => decide (dc.getD i 0 < eps))
  (splitRuns marked).map
    (fun run => run.map (fun i => sidx.getD i 0) ++ [sidx.getD (run.getLastD 0 + 1) 0])

/-! ### numpy construction model (`np.atleast_1d` / `np.atleast_2d`)

The constructors accept arbitrary array-like input; only its nesting depth
(`ndim`) and outer lengths matter for the shape claims, so the input is
modelled as a nested-list tree. -/

/-- Arbitrary array-like constructor input: a scalar or a (nested) list. -/
inductive NPInput (α : Type) : Type where
  | scalar : α → NPInput α
  | arr : List (NPInput α) → NPInput α

/-- `ndim` of an array-like: nesting depth (numpy arrays are rectangular, so
the depth of the first branch is the depth everywhere). -/
def NPInput.ndim {α : Type} : NPInput α → ℕ
  | NPInput.scalar _ => 0
  | NPInput.arr [] => 1
  | NPInput.arr (x :: _) => x.ndim + 1

/-- The length of the outermost dimension (numpy `shape[0]`; 0 for a scalar,
which has no dimensions). -/
def NPInput.firstDim {α : Type} : NPInput α → ℕ
  | NPInput.scalar _ => 0
  | NPInput.arr xs => xs.length

/-- `np.atleast_1d`: a 0-d scalar becomes a length-1 array, anything else is
returned unchanged. -/
def NPInput.atleast1d {α : Type} : NPInput α → NPInput α
  | NPInput.scalar x => NPInput.arr [NPInput.scalar x]
  | NPInput.arr xs => NPInput.arr xs

/-- `np.atleast_2d`: a 0-d scalar is reshaped to `(1, 1)`, a 1-d array `a`
becomes `a[newaxis, :]`, and any array of dimension two or more is returned
unchanged. -/
def NPInput.atleast2d {α : Type} (a : NPInput α) : NPInput α :=
  match a with
  | NPInput.scalar x => NPInput.arr [NPInput.arr [NPInput.scalar x]]
  | NPInput.arr xs =>
    if (NPInput.arr xs).ndim = 1 then NPInput.arr [NPInput.arr xs] else NPInput.arr xs

/-- `Coefficient.__init__` stores `np.atleast_1d(c)`; this is the stored
array of a `Coefficient` built from arbitrary array-like input. -/
def coefficientInitStored {α : Type} (c : NPInput α) : NPInput α :=
  c.atleast1d

/-- `State.__init__` stores `np.atleast_2d(state)`; this is the stored array
of a `State` built from arbitrary array-like input. -/
def stateInitStored {α : Type} (state : NPInput α) : NPInput α :=
  state.atleast2d

/-! ### State -/

/-- `State`: a 2-D array of row state-vectors (`self.state`), already in its
post-construction (at-least-2-D) form. -/
structure State : Type where
  state : List (List ℂ)

/-- `State.shape` (`(N, M)` of the backing 2-D array). -/
def State.shape (s : State) : ℕ × ℕ :=
  (s.state.length, (s.state.headD []).length)

/-- `State.copy()`: a new object with a copied state array. -/
def State.copy (s : State) : State :=
  ⟨s.state⟩

/-- `State.sub(idx)`: the rows selected by `idx` (`self.state[idx].copy()`). -/
def State.sub (s : State) (idx : List ℕ) : State :=
  ⟨idx.map (fun i => s.state.getD i [])⟩

/-- Per-row `norm2` term `(conj(z) * z).real` summed along the row:
one entry of `State.norm2(sum=True)`. -/
noncomputable def norm2Row (row : List ℂ) : ℝ :=
  (row.map (fun z => (conj z * z).re)).sum

/-- One entry of `State.norm()`: `sqrt` of the summed squared magnitudes. -/
noncomputable def normRow (row : List ℂ) : ℝ :=
  Real.sqrt (norm2Row row)

/-- `State.norm()`: the vector of per-row Euclidean norms. -/
noncomputable def State.norm (s : State) : List ℝ :=
  s.state.map normRow

/-- `State.normalize()`: `self.state / n.reshape(-1, 1)` — every row divided
by its own norm. -/
noncomputable def State.normalize (s : State) : State :=
  ⟨s.state.map (fun row => row.map (fun z => z / (normRow row : ℂ)))⟩

/-- `np.argmax(np.absolute(l))`: index of the first element of largest
absolute magnitude (0 for the empty list). -/
noncomputable def argmaxAbs : List ℂ → ℕ
  | [] => 0
  | x :: xs =>
    if Complex.abs x < Complex.abs (xs.getD (argmaxAbs xs) 0) then argmaxAbs xs + 1 else 0

/-- The dominant-component phase of row `i` of `s`: `phase(method='max')`
(`np.angle` of the entry of largest magnitude). -/
noncomputable def phaseMaxRow (row : List ℂ) : ℝ :=
  Complex.arg (row.getD (argmaxAbs row) 0)

/-- `((delta + pi) % (2 pi)) - pi` with Python float `%` semantics (the
result of `x % (2 pi)` lies in `[0, 2 pi)`). -/
noncomputable def wrapDelta (x : ℝ) : ℝ :=
  toIcoMod Real.two_pi_pos 0 (x + π) - π

/-- The wrapped phase difference `align` computes for row `i`: `self`'s
dominant-component phase minus `other`'s phase at the same column index. -/
noncomputable def alignDelta (a b : State) (i : ℕ) : ℝ :=
  wrapDelta (phaseMaxRow (a.state.getD i [])
    - Complex.arg ((b.state.getD i []).getD (argmaxAbs (a.state.getD i [])) 0))

/-- The row indices `align` flips: `(abs_phase > pi/2).nonzero()[0]`. -/
noncomputable def alignFlips (a b : State) : List ℕ :=
  (List.range b.state.length).filter (fun i => decide (π / 2 < |alignDelta a b i|))

/-- `State.align(other)`: rows of `other` whose wrapped phase difference
against `self` exceeds `pi/2` in magnitude are multiplied by `-1`
(`out.state[idx, :] *= -1` on a copy of `other`). -/
noncomputable def State.align (a b : State) : State :=
  ⟨(List.range b.state.length).map (fun i =>
    if π / 2 < |alignDelta a b i| then (b.state.getD i []).map (fun z => -z)
    else b.state.getD i [])⟩

/-- Whether the object `align` returns is newly allocated: the source returns
`other` itself when no row flips and `copy=False`, otherwise a copy. -/
noncomputable def alignFresh (a b : State) (copy : Bool) : Bool :=
  if alignFlips a b = [] then copy else true

/-- `other.state` after `a.align(other)` returns: the source never writes to
`other`'s array (all writes go to the fresh copy `out`). -/
def alignPostOther (a b : State) : List (List ℂ) :=
  b.state

/-- The global scalar `rotate(phi, individual=False)` multiplies the whole
array by: `exp(1j*phi) * conj(s[idx] / abs(s[idx]))` at the position of
maximum magnitude over the flattened (row-major) array. -/
noncomputable def rotScaleGlobal (s : State) (phi : ℝ) : ℂ :=
  Complex.exp (phi * Complex.I) *
    conj (s.state.flatten.getD (argmaxAbs s.state.flatten) 0 /
      (Complex.abs (s.state.flatten.getD (argmaxAbs s.state.flatten) 0) : ℂ))

/-- The per-row scalar `rotate(phi, individual=True)` multiplies row `i` by:
`exp(1j*phi) * conj(s[i, idx] / abs(s[i, idx]))` at the row's own maximum. -/
noncomputable def rotScaleRow (row : List ℂ) (phi : ℝ) : ℂ :=
  Complex.exp (phi * Complex.I) *
    conj (row.getD (argmaxAbs row) 0 / (Complex.abs (row.getD (argmaxAbs row) 0) : ℂ))

/-- `State.rotate(phi, individual)`: the value of `self.state` after the
in-place update (`s *= ...` respectively `s[i, :] *= ...`). -/
noncomputable def State.rotate (s : State) (phi : ℝ) (individual : Bool) : State :=
  if individual then
    ⟨s.state.map (fun row => row.map (fun z => z * rotScaleRow row phi))⟩
  else
    ⟨s.state.map (fun row => row.map (fun z => z * rotScaleGlobal s phi))⟩

/-- `rotate` returns `None` in the source; its only output is the in-place
mutation. -/
def rotateReturns : Unit :=
  ()

/-! ### error model for the raising operations -/

/-- The exceptions raised by this module: the `ValueError` for an
`outer`/`inner` shape mismatch, the `ValueError` for a `StateC` coefficient
length mismatch, and the `IndexError` a zero-row `outer` hits. -/
inductive PyErr : Type where
  | shapeMismatch : PyErr
  | lengthMismatch : PyErr
  | indexError : PyErr
deriving DecidableEq

/-- `np.outer(v1, np.conjugate(v2))` as a matrix (list of rows). -/
def outerMat (v w : List ℂ) : List (List ℂ) :=
  v.map (fun a => w.map (fun b => a * conj b))

/-- Elementwise matrix sum (`m += ...`). -/
def matAdd (m₁ m₂ : List (List ℂ)) : List (List ℂ) :=
  List.zipWith (fun r₁ r₂ => List.zipWith (fun a b => a + b) r₁ r₂) m₁ m₂

/-- `State.outer(right)` with an explicit `right`: raises a `ValueError`
when the shapes differ, otherwise (optionally) aligns `right` and sums the
row-wise outer products starting from row 0 (a zero-row state raises
`IndexError` at `self.state[0, :]`). -/
noncomputable def State.outer (s : State) (right : State) (al : Bool) :
    Except PyErr (List (List ℂ)) :=
  if s.shape = right.shape then
    let r := if al then s.align right else right
    match s.state, r.state with
    | s0 :: srest, r0 :: rrest =>
      Except.ok ((List.zipWith outerMat srest rrest).foldl matAdd (outerMat s0 r0))
    | _, _ => Except.error PyErr.indexError
  else Except.error PyErr.shapeMismatch

/-- `State.inner(right, diagonal)` with an explicit `right`: raises a
`ValueError` when the shapes differ; otherwise the diagonal
`(conj(self.state) * right.state).sum(1)` or the full matrix
`dot(conj(self.state), right.state.T)` (returned row-major). -/
noncomputable def State.inner (s : State) (right : State) (diagonal al : Bool) :
    Except PyErr (List (List ℂ)) :=
  if s.shape = right.shape then
    let r := if al then s.align right else right
    if diagonal then
      Except.ok [List.zipWith (fun rs rr => ((List.zipWith (fun a b => conj a * b) rs rr).sum))
        s.state r.state]
    else
      Except.ok (s.state.map (fun rs =>
        r.state.map (fun rr => (List.zipWith (fun a b => conj a * b) rs rr).sum)))
  else Except.error PyErr.shapeMismatch

/-- `State.outer()` with `right=None`: `sum_i outer(state[i], conj(state[i]))`,
accumulated from row 0. -/
noncomputable def State.outerSelf (s : State) : Except PyErr (List (List ℂ)) :=
  match s.state with
  | [] => Except.error PyErr.indexError
  | r0 :: rest => Except.ok ((rest.map (fun v => outerMat v v)).foldl matAdd (outerMat r0 r0))

/-- `State.inner()` with `right=None`, `diagonal=True`:
`(conj(state) * state).sum(1)`. -/
def State.innerSelf (s : State) : List ℂ :=
  s.state.map (fun row => (row.map (fun z => conj z * z)).sum)

/-! ### StateC -/

/-- `StateC`: state rows plus one scalar coefficient per row. -/
structure StateC (γ : Type) : Type where
  state : List (List ℂ)
  c : List γ

/-- `StateC.__init__`: stores the (at-least-1-D) coefficients and raises a
`ValueError` when `len(self.c) != len(self.state)`. -/
def StateC.init {γ : Type} (state : List (List ℂ)) (c : List γ) :
    Except PyErr (StateC γ) :=
  if c.length = state.length then Except.ok ⟨state, c⟩
  else Except.error PyErr.lengthMismatch

/-- `StateC.sub(idx)`: rows and coefficients selected by the same indices. -/
def StateC.sub {γ : Type} [Zero γ] (sc : StateC γ) (idx : List ℕ) : StateC γ :=
  ⟨idx.map (fun i => sc.state.getD i []), idx.map (fun i => sc.c.getD i 0)⟩

/-- `StateC.sort(ascending)`: `sub` applied to `argsort(c)` (or to
`argsort(-c)` for descending order). -/
def StateC.sort {γ : Type} [LinearOrderedField γ] (sc : StateC γ) (ascending : Bool) :
    StateC γ :=
  if ascending then sc.sub (argsort sc.c)
  else sc.sub (argsort (sc.c.map (fun x => -x)))

/-! ### receiver state after each call (frame effects)

None of the transformation methods assigns to `self.state` (or `self.c`) in
the source — each builds its result via `self.__class__(...copy...)` — except
`rotate`, which multiplies into a view of `self.state`.  The following
definitions record the receiver's backing arrays after each call. -/

/-- `self.state` after `copy()`. -/
def State.copyPost (s : State) : List (List ℂ) := s.state

/-- `self.state` after `sub(idx)`. -/
def State.subPost (s : State) (idx : List ℕ) : List (List ℂ) := s.state

/-- `self.state` after `normalize()`. -/
def State.normalizePost (s : State) : List (List ℂ) := s.state

/-- `self.state` after `self.align(other)`. -/
def State.alignPost (a b : State) : List (List ℂ) := a.state

/-- `self.state` after `self.outer(right)` / `self.outer()`. -/
def State.outerPost (s : State) : List (List ℂ) := s.state

/-- `self.state` after `self.inner(right)` / `self.inner()`. -/
def State.innerPost (s : State) : List (List ℂ) := s.state

/-- `(self.state, self.c)` after `StateC.sort(...)`. -/
def StateC.sortPost {γ : Type} (sc : StateC γ) : List (List ℂ) × List γ :=
  (sc.state, sc.c)

/-- `self.state` after `rotate(phi, individual)`: the rotated array. -/
noncomputable def State.rotatePost (s : State) (phi : ℝ) (individual : Bool) :
    List (List ℂ) :=
  (s.rotate phi individual).state

/-! ### generic list lemmas -/

/-- Selecting every index of a list in order returns the list itself. -/
theorem map_getD_range {α : Type} (d : α) :
    ∀ l : List α, (List.range l.length).map (fun i => l.getD i d) = l
  | [] => rfl
  | x :: t => by
    rw [List.length_cons, List.range_succ_eq_map, List.map_cons, List.map_map]
    have h1 : ((fun i => (x :: t).getD i d) ∘ Nat.succ) = fun i => t.getD i d := by
      funext i
      simp
    rw [List.getD_cons_zero, h1, map_getD_range d t]

/-- `getD` through `map` for a function sending the default to the default. -/
theorem getD_map_of_default {α β : Type} (f : α → β) (d : α) (e : β) (hf : f d = e)
    (l : List α) (i : ℕ) : (l.map f).getD i e = f (l.getD i d) := by
  induction l generalizing i with
  | nil => simpa using hf.symm
  | cons x t ih =>
    cases i with
    | zero => simp
    | succ k => simpa using ih k

/-! ### C8: subsetting with the identity index list is the identity -/

/-- Claim C8: for every State, `state.sub(list(range(len(state)))).state`
equals `state.state` elementwise. -/
theorem sub_identity_roundtrip (s : State) :
    (s.sub (List.range s.state.length)).state = s.state := by
  simpa [State.sub] using map_getD_range ([] : List ℂ) s.state

/-! ### C4: StateC constructor length check -/

/-- Claim C4: constructing a StateC fails with the length-mismatch
`ValueError` exactly when the coefficient length differs from the number of
state rows, and on success `len(c) == state.shape[0]`. -/
theorem stateC_init_length_check {γ : Type} (state : List (List ℂ)) (c : List γ) :
    (StateC.init state c = Except.error PyErr.lengthMismatch ↔ c.length ≠ state.length)
    ∧ ∀ sc : StateC γ, StateC.init state c = Except.ok sc → sc.c.length = state.length := by
  constructor
  · by_cases h : c.length = state.length <;> simp [StateC.init, h]
  · intro sc hsc
    by_cases h : c.length = state.length
    · rw [StateC.init, if_pos h] at hsc
      injection hsc with hsc
      rw [← hsc]
      exact h
    · rw [StateC.init, if_neg h] at hsc
      exact absurd hsc (by simp)

/-- Witness for C4 at a concrete equal-length input. -/
theorem stateC_init_length_check_witness :
    StateC.init [[(1 : ℂ)]] [(2 : ℚ)] = Except.ok ⟨[[(1 : ℂ)]], [(2 : ℚ)]⟩
    ∧ (⟨[[(1 : ℂ)]], [(2 : ℚ)]⟩ : StateC ℚ).c.length = [[(1 : ℂ)]].length :=
  ⟨rfl, (stateC_init_length_check [[(1 : ℂ)]] [(2 : ℚ)]).2 ⟨[[(1 : ℂ)]], [(2 : ℚ)]⟩ rfl⟩

/-! ### C6: outer/inner shape guard -/

/-- Claim C6: `outer`/`inner` with an explicit `right` raise the
shape-mismatch `ValueError` exactly when the shapes differ. -/
theorem inner_outer_shape_guard (s o : State) (diagonal al : Bool) :
    (s.outer o al = Except.error PyErr.shapeMismatch ↔ s.shape ≠ o.shape)
    ∧ (s.inner o diagonal al = Except.error PyErr.shapeMismatch ↔ s.shape ≠ o.shape) := by
  constructor
  · by_cases h : s.shape = o.shape
    · refine iff_of_false ?_ (by simp [h])
      unfold State.outer
      rw [if_pos h]
      intro hc
      split at hc
      all_goals simp only [] at hc
      all_goals split at hc
      all_goals simp at hc
    · simp [State.outer, if_neg h, h]
  · by_cases h : s.shape = o.shape
    · refine iff_of_false ?_ (by simp [h])
      unfold State.inner
      rw [if_pos h]
      intro hc
      split at hc
      all_goals simp only [] at hc
      all_goals split at hc
      all_goals simp at hc
    · simp [State.inner, if_neg h, h]

/-! ### C3: construction shape invariant -/

/-- Every numpy array has at least one dimension. -/
theorem one_le_ndim_arr {α : Type} (xs : List (NPInput α)) : 1 ≤ (NPInput.arr xs).ndim := by
  cases xs with
  | nil => simp [NPInput.ndim]
  | cons x t => simp [NPInput.ndim]

/-- Counterexample to claim C3 as stated: a 3-D input to the State
constructor stays 3-D (`np.atleast_2d` does not reduce dimensions), and a
2-D input to the Coefficient constructor stays 2-D. -/
theorem construct_ndim_counterexample :
    (stateInitStored (NPInput.arr [NPInput.arr [NPInput.arr [NPInput.scalar true]]])).ndim ≠ 2
    ∧ (coefficientInitStored (NPInput.arr [NPInput.arr [NPInput.scalar true]])).ndim ≠ 1 := by
  constructor
  · have h3 : (NPInput.arr [NPInput.arr [NPInput.arr [NPInput.scalar true]]]).ndim = 3 := by
      simp [NPInput.ndim]
    simp [stateInitStored, NPInput.atleast2d, h3, NPInput.ndim]
  · simp [coefficientInitStored, NPInput.atleast1d, NPInput.ndim]

/-- Claim C3 (amended): the stored array of a State is 2-D for inputs of at
most two dimensions (a scalar or 1-D input gaining a leading dimension of
length 1), the stored array of a Coefficient is 1-D for inputs of at most one
dimension, and higher-dimensional inputs are stored unchanged. -/
theorem construct_ndim_invariant {α : Type} (a : NPInput α) :
    (a.ndim ≤ 2 → (stateInitStored a).ndim = 2)
    ∧ (a.ndim ≤ 1 → (coefficientInitStored a).ndim = 1)
    ∧ (a.ndim ≤ 1 → (stateInitStored a).firstDim = 1)
    ∧ (∀ xs : List (NPInput α), (NPInput.arr xs).ndim = 1 →
        stateInitStored (NPInput.arr xs) = NPInput.arr [NPInput.arr xs])
    ∧ (2 ≤ a.ndim → stateInitStored a = a) := by
  refine ⟨?_, ?_, ?_, ?_, ?_⟩
  · intro h2
    cases a with
    | scalar x => simp [stateInitStored, NPInput.atleast2d, NPInput.ndim]
    | arr xs =>
      by_cases h1 : (NPInput.arr xs).ndim = 1
      · simp [stateInitStored, NPInput.atleast2d, h1, NPInput.ndim]
      · have hge := one_le_ndim_arr xs
        have : (NPInput.arr xs).ndim = 2 := by omega
        simp [stateInitStored, NPInput.atleast2d, h1, this]
  · intro h1
    cases a with
    | scalar x => simp [coefficientInitStored, NPInput.atleast1d, NPInput.ndim]
    | arr xs =>
      have hge := one_le_ndim_arr xs
      simp [coefficientInitStored, NPInput.atleast1d]
      omega
  · intro h1
    cases a with
    | scalar x => simp [stateInitStored, NPInput.atleast2d, NPInput.firstDim]
    | arr xs =>
      have hge := one_le_ndim_arr xs
      have : (NPInput.arr xs).ndim = 1 := by omega
      simp [stateInitStored, NPInput.atleast2d, this, NPInput.firstDim]
  · intro xs h1
    simp [stateInitStored, NPInput.atleast2d, h1]
  · intro h2
    cases a with
    | scalar x => simp [NPInput.ndim] at h2
    | arr xs =>
      have h1 : ¬ (NPInput.arr xs).ndim = 1 := by omega
      simp [stateInitStored, NPInput.atleast2d, h1]

/-- Witness for C3 (amended) at a concrete 1-D input. -/
theorem construct_ndim_invariant_witness :
    (NPInput.arr [NPInput.scalar true]).ndim ≤ 2
    ∧ (stateInitStored (NPInput.arr [NPInput.scalar true])).ndim = 2 := by
  have h : (NPInput.arr [NPInput.scalar true]).ndim ≤ 2 := by
    simp [NPInput.ndim]
  exact ⟨h, (construct_ndim_invariant (NPInput.arr [NPInput.scalar true])).1 h⟩

/-! ### C5: StateC.sort -/

/-- `argsort` produces indices whose values are ascending. -/
theorem sorted_map_argsort {γ : Type} [LinearOrderedField γ] (c : List γ) :
    List.Sorted (fun x y => x ≤ y) ((argsort c).map (fun i => c.getD i 0)) := by
  haveI ht : IsTotal ℕ (fun i j => c.getD i 0 ≤ c.getD j 0) :=
    ⟨fun i j => le_total (c.getD i 0) (c.getD j 0)⟩
  haveI htr : IsTrans ℕ (fun i j => c.getD i 0 ≤ c.getD j 0) :=
    ⟨fun _ _ _ hab hbc => le_trans hab hbc⟩
  have hs := List.sorted_insertionSort (fun i j => c.getD i 0 ≤ c.getD j 0)
    (List.range c.length)
  exact List.Pairwise.map _ (fun _ _ hr => hr) hs

/-- `argsort` is a permutation of `range n`. -/
theorem argsort_perm {γ : Type} [LinearOrderedField γ] (c : List γ) :
    (argsort c).Perm (List.range c.length) :=
  List.perm_insertionSort _ _

/-- Claim C5: `StateC.sort(ascending=True)` returns coefficients in
nondecreasing order with the state rows permuted by exactly the same
(argsort) permutation, and on `c = [3, 1, 2]` the result has `c = [1, 2, 3]`
with the row that had coefficient 1 first. -/
theorem stateC_sort_spec :
    (∀ (γ : Type) [inst : LinearOrderedField γ] (sc : StateC γ),
      List.Sorted (fun x y => x ≤ y) ((sc.sort true).c)
      ∧ (argsort sc.c).Perm (List.range sc.c.length)
      ∧ (sc.sort true).c = (argsort sc.c).map (fun i => sc.c.getD i 0)
      ∧ (sc.sort true).state = (argsort sc.c).map (fun i => sc.state.getD i []))
    ∧ ((⟨[[0], [10], [20]], [3, 1, 2]⟩ : StateC ℚ).sort true).c = [1, 2, 3]
    ∧ ((⟨[[0], [10], [20]], [3, 1, 2]⟩ : StateC ℚ).sort true).state
        = [[10], [20], [0]] := by
  refine ⟨?_, ?_, ?_⟩
  · intro γ inst sc
    refine ⟨?_, argsort_perm sc.c, rfl, rfl⟩
    exact sorted_map_argsort sc.c
  · decide
  · have ha : argsort ([3, 1, 2] : List ℚ) = [1, 2, 0] := by decide
    show (argsort ([3, 1, 2] : List ℚ)).map
      (fun i => ([[0], [10], [20]] : List (List ℂ)).getD i []) = [[10], [20], [0]]
    rw [ha]
    rfl

/-! ### C1: degeneracy grouping -/

/-- `splitRuns` of a nonempty list starts with a run beginning at the head. -/
theorem splitRuns_cons_head (y : ℕ) (t : List ℕ) :
    ∃ g rest, splitRuns (y :: t) = (y :: g) :: rest := by
  rw [splitRuns]
  rcases h : splitRuns t with _ | ⟨g0, rest⟩
  · exact ⟨[], [], rfl⟩
  · rcases g0 with _ | ⟨z, g⟩
    · exact ⟨[], [] :: rest, rfl⟩
    · by_cases hz : z ≤ y + 1
      · refine ⟨z :: g, rest, ?_⟩
        show (if z ≤ y + 1 then (y :: z :: g) :: rest else [y] :: (z :: g) :: rest)
            = (y :: z :: g) :: rest
        rw [if_pos hz]
      · refine ⟨[], (z :: g) :: rest, ?_⟩
        show (if z ≤ y + 1 then (y :: z :: g) :: rest else [y] :: (z :: g) :: rest)
            = [y] :: (z :: g) :: rest
        rw [if_neg hz]

/-- Pushing an element onto the list being split prepends it to the first
chunk when all split positions are shifted by one. -/
theorem arraySplit_map_succ (x : ℕ) (l : List ℕ) (ps : List ℕ) :
    arraySplit (x :: l) (ps.map (fun q => q + 1))
      = (x :: (arraySplit l ps).headD []) :: (arraySplit l ps).tail := by
  cases ps with
  | nil => simp [arraySplit]
  | cons p ps' =>
    have hmap : (ps'.map (fun q => q + 1)).map (fun q => q - (p + 1))
        = ps'.map (fun q => q - p) := by
      rw [List.map_map]
      exact List.map_congr_left (fun q _ => Nat.succ_sub_succ q p)
    rw [List.map_cons, arraySplit, List.take_succ_cons, List.drop_succ_cons, hmap,
      arraySplit]
    rfl

/-- The recursion of `gapBreaks` on a list with at least two elements. -/
theorem gapBreaks_cons₂ (x y : ℕ) (t : List ℕ) :
    gapBreaks (x :: y :: t)
      = (if 1 < y - x then [0] else []) ++ (gapBreaks (y :: t)).map (fun q => q + 1) := by
  have hd : diffs (x :: y :: t) = (y - x) :: diffs (y :: t) := by
    simp [diffs]
  unfold gapBreaks
  rw [hd, List.length_cons, List.range_succ_eq_map, List.filter_cons, List.filter_map]
  have hpred : ((fun i => decide (1 < ((y - x) :: diffs (y :: t)).getD i 0)) ∘ Nat.succ)
      = fun i => decide (1 < (diffs (y :: t)).getD i 0) := by
    funext i
    simp
  rw [hpred]
  have hsucc : (List.map Nat.succ
      ((List.range (diffs (y :: t)).length).filter
        (fun i => decide (1 < (diffs (y :: t)).getD i 0))))
      = ((List.range (diffs (y :: t)).length).filter
        (fun i => decide (1 < (diffs (y :: t)).getD i 0))).map (fun q => q + 1) := by
    exact List.map_congr_left (fun q _ => rfl)
  rw [hsucc]
  by_cases hgap : 1 < y - x
  · rw [if_pos (by simpa using hgap), if_pos hgap]
    rfl
  · rw [if_neg (by simpa using hgap), if_neg hgap]
    rfl

/-- Unfolding `splitRuns` on two leading elements, given the recursive
result. -/
theorem splitRuns_cons_cons (x y : ℕ) (t : List ℕ) (g : List ℕ)
    (rest : List (List ℕ)) (h : splitRuns (y :: t) = (y :: g) :: rest) :
    splitRuns (x :: y :: t)
      = if y ≤ x + 1 then (x :: y :: g) :: rest else [x] :: (y :: g) :: rest := by
  rw [splitRuns, h]

/-- The source's `array_split` at the computed separation points coincides
with the spec's maximal-contiguous-runs grouping. -/
theorem arraySplit_gapBreaks :
    ∀ m : List ℕ, m ≠ [] →
      arraySplit m ((gapBreaks m).map (fun q => q + 1)) = splitRuns m := by
  intro m
  induction m with
  | nil => exact fun h => absurd rfl h
  | cons x t ih =>
    intro _
    cases t with
    | nil => simp [gapBreaks, diffs, arraySplit, splitRuns]
    | cons y t' =>
      have iht := ih (by simp)
      obtain ⟨g, rest, hsr⟩ := splitRuns_cons_head y t'
      by_cases hgap : 1 < y - x
      · have hle : ¬ y ≤ x + 1 := by omega
        rw [splitRuns_cons_cons x y t' g rest hsr, if_neg hle]
        rw [gapBreaks_cons₂, if_pos hgap, List.map_append]
        have h01 : (([0] : List ℕ).map (fun q => q + 1)) = [1] := rfl
        have hx2 : ((gapBreaks (y :: t')).map (fun q => q + 1)).map (fun q => q + 1)
            = (gapBreaks (y :: t')).map (fun q => q + 2) := by
          rw [List.map_map]
          exact List.map_congr_left (fun q _ => rfl)
        rw [h01, hx2]
        show arraySplit (x :: y :: t') (1 :: (gapBreaks (y :: t')).map (fun q => q + 2))
            = [x] :: (y :: g) :: rest
        rw [arraySplit]
        have hx1 : ((gapBreaks (y :: t')).map (fun q => q + 2)).map (fun q => q - 1)
            = (gapBreaks (y :: t')).map (fun q => q + 1) := by
          rw [List.map_map]
          exact List.map_congr_left (fun q _ => rfl)
        rw [hx1]
        show [x] :: arraySplit (y :: t') ((gapBreaks (y :: t')).map (fun q => q + 1))
            = [x] :: (y :: g) :: rest
        rw [iht, hsr]
      · have hle : y ≤ x + 1 := by omega
        rw [splitRuns_cons_cons x y t' g rest hsr, if_pos hle]
        rw [gapBreaks_cons₂, if_neg hgap, List.nil_append]
        rw [arraySplit_map_succ, iht, hsr]
        rfl

/-- `degenerate` agrees everywhere with the spec-worded grouping. -/
theorem degenerate_eq_degenerateSpec {γ : Type} [LinearOrderedField γ]
    (co : Coefficient γ) (eps : γ) : co.degenerate eps = co.degenerateSpec eps := by
  unfold Coefficient.degenerate Coefficient.degenerateSpec
  simp only []
  by_cases h : ((List.range (diffs ((argsort co.c).map (fun i => co.c.getD i 0))).length).filter
      (fun i => decide ((diffs ((argsort co.c).map (fun i => co.c.getD i 0))).getD i 0 < eps)))
      = []
  · rw [if_pos h, h]
    rfl
  · rw [if_neg h, arraySplit_gapBreaks _ h]

/-- Evaluation of `degenerate` on four already-ascending values whose first
and last consecutive differences are below `eps` while the middle one is
not. -/
theorem degenerate_four {γ : Type} [LinearOrderedField γ]
    (a b c d eps : γ) (hab : a ≤ b) (hbc : b ≤ c) (hcd : c ≤ d)
    (h1 : b - a < eps) (h2 : ¬ (c - b < eps)) (h3 : d - c < eps) :
    Coefficient.degenerate (⟨[a, b, c, d]⟩ : Coefficient γ) eps = [[0, 1], [2, 3]] := by
  have ha : argsort [a, b, c, d] = [0, 1, 2, 3] := by
    simp [argsort, List.insertionSort, List.orderedInsert, List.range_succ, hab, hbc, hcd]
  unfold Coefficient.degenerate
  simp only []
  rw [ha]
  simp only [List.map_cons, List.map_nil, List.getD_cons_zero, List.getD_cons_succ]
  have hdc : diffs [a, b, c, d] = [b - a, c - b, d - c] := by
    simp [diffs]
  have hfil : ((List.range ([b - a, c - b, d - c] : List γ).length).filter
      (fun i => decide (([b - a, c - b, d - c] : List γ).getD i 0 < eps))) = [0, 2] := by
    simp [List.range_succ, List.filter_cons, h1, h2, h3]
  have hgb : gapBreaks [0, 2] = [0] := by
    simp [gapBreaks, diffs, List.range_succ]
  have hsp : arraySplit [0, 2] [1] = [[0], [2]] := by
    simp [arraySplit]
  simp only [hdc, hfil, hgb]
  rw [if_neg (by simp)]
  simp [hsp]

/-- Claim C1: `degenerate(eps)` follows the specified algorithm (sort
indices ascending, mark strict sub-`eps` consecutive sorted differences,
group marked positions into maximal contiguous runs, emit original indices
plus one trailing index); on `[1.0, 1.0000005, 5.0, 5.0000003]` with
`eps = 1e-4` it returns exactly `[0, 1]` and `[2, 3]`; and it returns `[]`
whenever no consecutive sorted difference is strictly below `eps`. -/
theorem degenerate_follows_spec :
    (∀ (γ : Type) [inst : LinearOrderedField γ] (co : Coefficient γ) (eps : γ),
        co.degenerate eps = co.degenerateSpec eps)
    ∧ (Coefficient.degenerate
        (⟨[1, 10000005 / 10000000, 5, 50000003 / 10000000]⟩ : Coefficient ℚ) (1 / 10000)
          = [[0, 1], [2, 3]])
    ∧ (∀ (γ : Type) [inst : LinearOrderedField γ] (co : Coefficient γ) (eps : γ),
        (∀ d ∈ diffs ((argsort co.c).map (fun i => co.c.getD i 0)), eps ≤ d) →
        co.degenerate eps = []) := by
  refine ⟨?_, ?_, ?_⟩
  · intro γ inst co eps
    exact degenerate_eq_degenerateSpec co eps
  · exact degenerate_four 1 (10000005 / 10000000) 5 (50000003 / 10000000) (1 / 10000)
      (by norm_num) (by norm_num) (by norm_num) (by norm_num) (by norm_num) (by norm_num)
  · intro γ inst co eps hd
    unfold Coefficient.degenerate
    simp only []
    rw [if_pos]
    rw [List.filter_eq_nil_iff]
    intro i hi
    rw [List.mem_range] at hi
    simp only [decide_eq_true_eq, not_lt]
    exact hd _ (by
      rw [List.getD_eq_getElem _ _ hi]
      exact List.getElem_mem hi)

/-- Witness for C1 at a concrete input whose only sorted difference equals
`eps` exactly: an equal-to-tolerance difference is not degenerate and the
result is empty. -/
theorem degenerate_follows_spec_witness :
    (∀ d ∈ diffs ((argsort ([0, 1] : List ℚ)).map (fun i => ([0, 1] : List ℚ).getD i 0)),
      (1 : ℚ) ≤ d)
    ∧ Coefficient.degenerate (⟨[0, 1]⟩ : Coefficient ℚ) 1 = [] :=
  ⟨by norm_num [diffs, argsort, List.insertionSort, List.orderedInsert],
    degenerate_follows_spec.2.2 ℚ (⟨[0, 1]⟩ : Coefficient ℚ) 1
      (by norm_num [diffs, argsort, List.insertionSort, List.orderedInsert])⟩

/-! ### C7: normalize -/

/-- The summand of `norm2` is the squared magnitude. -/
theorem conj_mul_self_re (z : ℂ) : (conj z * z).re = Complex.normSq z := by
  rw [mul_comm, Complex.mul_conj, Complex.ofReal_re]

/-- The summand of `norm2` after dividing by a real scalar. -/
theorem conj_mul_self_re_div (z : ℂ) (n : ℝ) :
    (conj (z / (n : ℂ)) * (z / (n : ℂ))).re = Complex.normSq z / (n * n) := by
  rw [map_div₀, Complex.conj_ofReal, div_mul_div_comm, mul_comm (conj z) z,
    Complex.mul_conj, ← Complex.ofReal_mul, ← Complex.ofReal_div, Complex.ofReal_re]

/-- `norm2` of a row divided by a real scalar. -/
theorem norm2Row_scale (row : List ℂ) (n : ℝ) :
    norm2Row (row.map (fun z => z / (n : ℂ))) = norm2Row row / (n * n) := by
  induction row with
  | nil => simp [norm2Row]
  | cons z t ih =>
    simp only [norm2Row, List.map_cons, List.sum_cons] at ih ⊢
    rw [ih, conj_mul_self_re_div, conj_mul_self_re, div_add_div_same]

/-- `norm2` is a sum of squared magnitudes, hence nonnegative. -/
theorem norm2Row_nonneg (row : List ℂ) : 0 ≤ norm2Row row := by
  refine List.sum_nonneg ?_
  intro x hx
  obtain ⟨z, _, rfl⟩ := List.mem_map.mp hx
  rw [conj_mul_self_re]
  exact Complex.normSq_nonneg z

/-- A row of nonzero norm has norm exactly 1 after dividing by its norm. -/
theorem normRow_scale (row : List ℂ) (h : normRow row ≠ 0) :
    normRow (row.map (fun z => z / (normRow row : ℂ))) = 1 := by
  have hnn : (0 : ℝ) ≤ Real.sqrt (norm2Row row) := Real.sqrt_nonneg _
  unfold normRow at h ⊢
  rw [norm2Row_scale, Real.sqrt_div (norm2Row_nonneg row),
    Real.sqrt_mul_self hnn, div_self h]

/-- Claim C7: on a State all of whose rows have nonzero norm, every row of
`normalize()` has norm 1, and `normalize` is idempotent. -/
theorem normalize_idempotent (s : State) (h : ∀ row ∈ s.state, normRow row ≠ 0) :
    (∀ x ∈ s.normalize.norm, x = 1) ∧ s.normalize.normalize = s.normalize := by
  constructor
  · intro x hx
    unfold State.norm State.normalize at hx
    obtain ⟨row2, hrow2, rfl⟩ := List.mem_map.mp hx
    obtain ⟨row, hrow, rfl⟩ := List.mem_map.mp hrow2
    exact normRow_scale row (h row hrow)
  · unfold State.normalize
    refine congrArg State.mk ?_
    have hone : ∀ row2 ∈ s.state.map (fun row => row.map (fun z => z / (normRow row : ℂ))),
        row2.map (fun z => z / (normRow row2 : ℂ)) = row2 := by
      intro row2 hrow2
      obtain ⟨row, hrow, rfl⟩ := List.mem_map.mp hrow2
      rw [normRow_scale row (h row hrow)]
      simp
    rw [List.map_congr_left hone, List.map_id']

/-- Witness for C7 at the concrete one-row state `[[1]]`. -/
theorem normalize_idempotent_witness :
    (∀ row ∈ (⟨[[1]]⟩ : State).state, normRow row ≠ 0)
    ∧ (⟨[[1]]⟩ : State).normalize.normalize = (⟨[[1]]⟩ : State).normalize := by
  have hh : ∀ row ∈ (⟨[[1]]⟩ : State).state, normRow row ≠ 0 := by
    intro row hrow
    have : row = [1] := by simpa using hrow
    rw [this]
    have h1 : norm2Row [1] = 1 := by
      simp [norm2Row]
    rw [normRow, h1, Real.sqrt_one]
    exact one_ne_zero
  exact ⟨hh, (normalize_idempotent ⟨[[1]]⟩ hh).2⟩

/-! ### C2: align -/

/-- `argmax` of a one-element row is 0. -/
theorem argmaxAbs_singleton (z : ℂ) : argmaxAbs [z] = 0 := by
  rw [argmaxAbs]
  rw [if_neg]
  simp only [List.getD_nil, map_zero, not_lt]
  exact AbsoluteValue.nonneg Complex.abs z

/-- The wrap formula lands in `[-pi, pi)`. -/
theorem wrapDelta_mem_Ico (x : ℝ) : wrapDelta x ∈ Set.Ico (-π) π := by
  have h := toIcoMod_mem_Ico Real.two_pi_pos 0 (x + π)
  rw [Set.mem_Ico] at h
  rw [Set.mem_Ico]
  unfold wrapDelta
  constructor
  · linarith [h.1]
  · have h2 := h.2
    rw [zero_add] at h2
    linarith

/-- Row `i` of the aligned state, for `i` in range. -/
theorem align_row (a b : State) (i : ℕ) (hi : i < b.state.length) :
    (a.align b).state.getD i []
      = if π / 2 < |alignDelta a b i| then (b.state.getD i []).map (fun z => -z)
        else b.state.getD i [] := by
  unfold State.align
  rw [List.getD_eq_getElem _ _ (by simpa using hi), List.getElem_map,
    List.getElem_range]

/-- The rows of `align` line up with `b`'s rows (same length). -/
theorem align_length (a b : State) : (a.align b).state.length = b.state.length := by
  unfold State.align
  simp

/-- Claim C2 (amended): `align` computes the wrapped phase difference by the
stated formula (landing in `[-pi, pi)`, not `(-pi, pi]`), flips by `-1`
exactly the rows whose wrapped absolute difference exceeds `pi/2`, preserves
all magnitudes, leaves `other` untouched, and returns a fresh object
whenever at least one row flips. -/
theorem align_signflip_spec (a b : State) (h : a.shape = b.shape) :
    (∀ i, i < b.state.length →
      ((π / 2 < |alignDelta a b i| →
          (a.align b).state.getD i [] = (b.state.getD i []).map (fun z => -z))
        ∧ (¬ π / 2 < |alignDelta a b i| →
          (a.align b).state.getD i [] = b.state.getD i [])))
    ∧ (∀ i j, Complex.abs (((a.align b).state.getD i []).getD j 0)
        = Complex.abs ((b.state.getD i []).getD j 0))
    ∧ (∀ i, alignDelta a b i ∈ Set.Ico (-π) π)
    ∧ alignPostOther a b = b.state
    ∧ (∀ copy : Bool, alignFlips a b ≠ [] → alignFresh a b copy = true) := by
  refine ⟨?_, ?_, ?_, rfl, ?_⟩
  · intro i hi
    constructor
    · intro hflip
      rw [align_row a b i hi, if_pos hflip]
    · intro hflip
      rw [align_row a b i hi, if_neg hflip]
  · intro i j
    by_cases hi : i < b.state.length
    · rw [align_row a b i hi]
      by_cases hflip : π / 2 < |alignDelta a b i|
      · rw [if_pos hflip,
          getD_map_of_default (fun z => -z) 0 0 neg_zero (b.state.getD i []) j]
        exact AbsoluteValue.map_neg Complex.abs _
      · rw [if_neg hflip]
    · have hle : b.state.length ≤ i := not_lt.mp hi
      rw [List.getD_eq_default ((a.align b).state) []
          (by rw [align_length]; exact hle),
        List.getD_eq_default b.state [] hle]
  · intro i
    exact wrapDelta_mem_Ico _
  · intro copy hne
    unfold alignFresh
    rw [if_neg hne]

/-- Counterexample to claim C2 as stated: for `a = [[1]]`, `b = [[-1]]` the
wrapped phase difference equals `-pi`, which does not lie in the claimed
interval `(-pi, pi]`. -/
theorem align_wrap_range_counterexample :
    alignDelta ⟨[[1]]⟩ ⟨[[-1]]⟩ 0 = -π ∧ (-π) ∉ Set.Ioc (-π) π := by
  constructor
  · unfold alignDelta phaseMaxRow
    simp only [List.getD_cons_zero, argmaxAbs_singleton, Complex.arg_one,
      Complex.arg_neg_one]
    unfold wrapDelta
    rw [zero_sub, neg_add_cancel]
    have h0 : toIcoMod Real.two_pi_pos 0 0 = 0 := by
      rw [toIcoMod_eq_self]
      constructor
      · exact le_refl 0
      · rw [zero_add]
        exact Real.two_pi_pos
    rw [h0, zero_sub]
  · rw [Set.mem_Ioc]
    intro hc
    exact lt_irrefl _ hc.1

/-- Witness for C2 (amended) at concrete equal-shape states. -/
theorem align_signflip_spec_witness :
    (⟨[[1]]⟩ : State).shape = (⟨[[Complex.I]]⟩ : State).shape
    ∧ (∀ i, alignDelta ⟨[[1]]⟩ ⟨[[Complex.I]]⟩ i ∈ Set.Ico (-π) π) :=
  ⟨rfl, (align_signflip_spec ⟨[[1]]⟩ ⟨[[Complex.I]]⟩ rfl).2.2.1⟩

/-! ### C10: rotate preserves magnitudes -/

/-- The rotation scalar `exp(i phi) * conj(z / |z|)` has unit modulus for
nonzero `z`. -/
theorem abs_rotScale (z : ℂ) (phi : ℝ) (hz : z ≠ 0) :
    Complex.abs (Complex.exp (phi * Complex.I) * conj (z / (Complex.abs z : ℂ))) = 1 := by
  rw [map_mul, Complex.abs_exp_ofReal_mul_I, one_mul, Complex.abs_conj, map_div₀,
    Complex.abs_ofReal, abs_of_nonneg (AbsoluteValue.nonneg Complex.abs z),
    div_self (ne_of_gt (AbsoluteValue.pos Complex.abs hz))]

/-- Entrywise magnitude after multiplying a row by a unit-modulus scalar. -/
theorem abs_getD_map_mul (row : List ℂ) (u : ℂ) (hu : Complex.abs u = 1) (j : ℕ) :
    Complex.abs ((row.map (fun z => z * u)).getD j 0)
      = Complex.abs (row.getD j 0) := by
  rw [getD_map_of_default (fun z => z * u) 0 0 (zero_mul u) row j, map_mul, hu, mul_one]

/-- Claim C10: in both global and per-row mode, `rotate(phi)` multiplies the
affected rows by a unit-modulus scalar, so every component's absolute
magnitude is unchanged, provided the selected maximum-magnitude component is
nonzero. -/
theorem rotate_preserves_magnitude (s : State) (phi : ℝ) :
    ((s.state.flatten.getD (argmaxAbs s.state.flatten) 0 ≠ 0) →
      Complex.abs (rotScaleGlobal s phi) = 1
      ∧ ∀ i j, Complex.abs (((s.rotate phi false).state.getD i []).getD j 0)
          = Complex.abs ((s.state.getD i []).getD j 0))
    ∧ ((∀ row ∈ s.state, row.getD (argmaxAbs row) 0 ≠ 0) →
      (∀ row ∈ s.state, Complex.abs (rotScaleRow row phi) = 1)
      ∧ ∀ i j, Complex.abs (((s.rotate phi true).state.getD i []).getD j 0)
          = Complex.abs ((s.state.getD i []).getD j 0)) := by
  constructor
  · intro hz
    have hu : Complex.abs (rotScaleGlobal s phi) = 1 := abs_rotScale _ phi hz
    refine ⟨hu, ?_⟩
    intro i j
    show Complex.abs ((((⟨s.state.map
        (fun row => row.map (fun z => z * rotScaleGlobal s phi))⟩ : State)).state.getD i []).getD j 0)
      = Complex.abs ((s.state.getD i []).getD j 0)
    rw [getD_map_of_default (fun row => row.map (fun z => z * rotScaleGlobal s phi))
      [] [] rfl s.state i]
    exact abs_getD_map_mul _ _ hu j
  · intro hz
    have hu : ∀ row ∈ s.state, Complex.abs (rotScaleRow row phi) = 1 := by
      intro row hrow
      exact abs_rotScale _ phi (hz row hrow)
    refine ⟨hu, ?_⟩
    intro i j
    show Complex.abs ((((⟨s.state.map
        (fun row => row.map (fun z => z * rotScaleRow row phi))⟩ : State)).state.getD i []).getD j 0)
      = Complex.abs ((s.state.getD i []).getD j 0)
    rw [getD_map_of_default (fun row => row.map (fun z => z * rotScaleRow row phi))
      [] [] rfl s.state i]
    by_cases hi : i < s.state.length
    · refine abs_getD_map_mul _ _ ?_ j
      refine hu _ ?_
      rw [List.getD_eq_getElem _ _ hi]
      exact List.getElem_mem hi
    · rw [List.getD_eq_default _ _ (not_lt.mp hi)]
      simp

/-- Witness for C10 at the concrete state `[[1]]` and `phi = 0`. -/
theorem rotate_preserves_magnitude_witness :
    ((⟨[[1]]⟩ : State).state.flatten.getD
        (argmaxAbs (⟨[[1]]⟩ : State).state.flatten) 0 ≠ 0)
    ∧ (∀ row ∈ (⟨[[1]]⟩ : State).state, row.getD (argmaxAbs row) 0 ≠ 0)
    ∧ Complex.abs (rotScaleGlobal ⟨[[1]]⟩ 0) = 1
    ∧ (∀ row ∈ (⟨[[1]]⟩ : State).state, Complex.abs (rotScaleRow row 0) = 1) := by
  have hfl : (⟨[[1]]⟩ : State).state.flatten = [1] := by
    simp
  have h1 : (⟨[[1]]⟩ : State).state.flatten.getD
      (argmaxAbs (⟨[[1]]⟩ : State).state.flatten) 0 ≠ 0 := by
    rw [hfl, argmaxAbs_singleton, List.getD_cons_zero]
    exact one_ne_zero
  have h2 : ∀ row ∈ (⟨[[1]]⟩ : State).state, row.getD (argmaxAbs row) 0 ≠ 0 := by
    intro row hrow
    have : row = [1] := by simpa using hrow
    rw [this, argmaxAbs_singleton, List.getD_cons_zero]
    exact one_ne_zero
  exact ⟨h1, h2, ((rotate_preserves_magnitude ⟨[[1]]⟩ 0).1 h1).1,
    ((rotate_preserves_magnitude ⟨[[1]]⟩ 0).2 h2).1⟩

/-! ### C9: frame effects -/

/-- The global rotation scalar for the concrete state `[[-1]]` at angle 0. -/
theorem rotScaleGlobal_neg_one : rotScaleGlobal ⟨[[-1]]⟩ 0 = -1 := by
  unfold rotScaleGlobal
  have hfl : (⟨[[-1]]⟩ : State).state.flatten = [-1] := by
    simp
  rw [hfl, argmaxAbs_singleton, List.getD_cons_zero, AbsoluteValue.map_neg, map_one,
    Complex.ofReal_one, div_one, map_neg, map_one, Complex.ofReal_zero, zero_mul,
    Complex.exp_zero, one_mul]

/-- Claim C9 (amended): the transformation operations do not change the
receiver's backing arrays; `copy`, `sub`, `normalize`, `sort` and
`inner`/`outer` always build fresh results; `align` returns a fresh object
exactly when some row flips or `copy=True` (otherwise it returns `other`
itself); `rotate` alone mutates the receiver's array in place and returns
nothing. -/
theorem pure_ops_frame :
    (∀ s : State, State.copyPost s = s.state ∧ (State.copy s).state = s.state)
    ∧ (∀ (s : State) (idx : List ℕ), State.subPost s idx = s.state)
    ∧ (∀ s : State, State.normalizePost s = s.state)
    ∧ (∀ a b : State, State.alignPost a b = a.state ∧ alignPostOther a b = b.state)
    ∧ (∀ s : State, State.outerPost s = s.state ∧ State.innerPost s = s.state)
    ∧ (∀ (γ : Type) (sc : StateC γ), StateC.sortPost sc = (sc.state, sc.c))
    ∧ rotateReturns = ()
    ∧ (∀ (s : State) (phi : ℝ) (individual : Bool),
        State.rotatePost s phi individual = (s.rotate phi individual).state)
    ∧ (State.rotate ⟨[[-1]]⟩ 0 false).state ≠ [[-1]]
    ∧ (∀ (a b : State) (copy : Bool),
        alignFresh a b copy = true ↔ (alignFlips a b ≠ [] ∨ copy = true)) := by
  refine ⟨fun s => ⟨rfl, rfl⟩, fun s idx => rfl, fun s => rfl, fun a b => ⟨rfl, rfl⟩,
    fun s => ⟨rfl, rfl⟩, fun γ sc => rfl, rfl, fun s phi individual => rfl, ?_, ?_⟩
  · have hr : (State.rotate ⟨[[-1]]⟩ 0 false).state = [[1]] := by
      show ((⟨[[-1]]⟩ : State).state.map
        (fun row => row.map (fun z => z * rotScaleGlobal ⟨[[-1]]⟩ 0))) = [[1]]
      rw [rotScaleGlobal_neg_one]
      norm_num
    rw [hr]
    intro hc
    have h2 : (1 : ℂ) = -1 := by
      simpa using hc
    have h3 : (1 : ℝ) = -1 := by
      simpa using congrArg Complex.re h2
    norm_num at h3
  · intro a b copy
    by_cases h : alignFlips a b = []
    · unfold alignFresh
      rw [if_pos h]
      simp [h]
    · unfold alignFresh
      rw [if_neg h]
      simp [h]

/-- Counterexample to claim C9 as stated: `align` does not always return a
new object — with no row to flip and `copy=False` the source returns `other`
itself. -/
theorem align_fresh_counterexample :
    alignFresh ⟨[[1]]⟩ ⟨[[1]]⟩ false = false := by
  have hd : alignDelta ⟨[[1]]⟩ ⟨[[1]]⟩ 0 = 0 := by
    unfold alignDelta phaseMaxRow
    simp only [List.getD_cons_zero, argmaxAbs_singleton, Complex.arg_one, sub_self]
    unfold wrapDelta
    rw [zero_add]
    have hpi : toIcoMod Real.two_pi_pos 0 π = π := by
      rw [toIcoMod_eq_self]
      constructor
      · exact Real.pi_pos.le
      · rw [zero_add]
        linarith [Real.pi_pos]
    rw [hpi, sub_self]
  have hflips : alignFlips ⟨[[1]]⟩ ⟨[[1]]⟩ = [] := by
    unfold alignFlips
    rw [List.filter_eq_nil_iff]
    intro i hi
    rw [List.mem_range] at hi
    have hi0 : i = 0 := by
      simpa [Nat.lt_one_iff] using hi
    subst hi0
    rw [hd]
    simp only [abs_zero, decide_eq_true_eq, not_lt]
    positivity
  unfold alignFresh
  rw [if_pos hflips]

end SislState
